import Mathlib

/-!
Verification of the qiskit-aqua fragment: the Deutsch-Jozsa algorithm
(`dj.py`), the Quantum Phase Estimation algorithm (`qpe.py`) and the
`VarFormBased` initial-state helper (`var_form_based.py`).

The embedding is shallow: quantum circuits are lists of gate records,
registers are lists of wire indices, Python dictionaries are association
lists, floating point scalars are modelled as rationals, and Python
exceptions are modelled with `Except` / explicit error values.
-/

/-! ## Circuit model

A circuit is a list of gate applications.  `QuantumCircuit.h(reg)` /
`QuantumCircuit.x(reg)` apply the gate to each wire of the register in
order; `measure(qreg, creg)` measures wire-by-wire. -/

inductive Gate where
  | h (q : Nat)
  | x (q : Nat)
  | barrier
  | measure (q : Nat) (c : Nat)
deriving DecidableEq, Repr

/-- A register is the ordered list of its wire indices. -/
abbrev Register := List Nat

/-- Python `QuantumCircuit.h(register)`: a Hadamard on every wire of the register. -/
def hOnRegister (r : Register) : List Gate := r.map Gate.h

/-- Python `QuantumCircuit.x(register)`: an X gate on every wire of the register. -/
def xOnRegister (r : Register) : List Gate := r.map Gate.x

/-- Python `QuantumCircuit.measure(qr, cr)`: wire-by-wire measurement. -/
def measureRegister (qr : Register) (cr : Register) : List Gate :=
  List.zipWith Gate.measure qr cr

/-! ## `var_form_based.py`: the `VarFormBased` initial state -/

/-- Python exceptions raised by this fragment. -/
inductive PyError where
  | runtimeError (msg : String)
  | valueError (msg : String)
deriving DecidableEq, Repr

/-- The interface of a `VariationalForm` component as used by
`VarFormBased`: a declared parameter count and a circuit constructor
`construct_circuit(params, q=register)`. -/
structure VariationalForm where
  num_parameters : Nat
  construct_circuit : List ℚ → Option Register → List Gate

/-- The fields stored by a successfully constructed `VarFormBased`. -/
structure VarFormBased where
  _var_form : VariationalForm
  _var_form_params : List ℚ

/-- Source method `VarFormBased.__init__`: raises
`RuntimeError('Incompatible parameters provided.')` when
`not var_form.num_parameters == len(params)`, otherwise stores the
variational form and the parameters. -/
def VarFormBased.init (var_form : VariationalForm) (params : List ℚ) :
    Except PyError VarFormBased :=
  if ¬ var_form.num_parameters = params.length then
    .error (.runtimeError "Incompatible parameters provided.")
  else
    .ok ⟨var_form, params⟩

/-- Source method `VarFormBased.construct_circuit(mode, register)`: `RuntimeError` for
mode `'vector'`, the variational form's circuit for `'circuit'`, and
`ValueError` for every other mode. -/
def VarFormBased.constructCircuit (s : VarFormBased) (mode : String)
    (register : Option Register) : Except PyError (List Gate) :=
  if mode = "vector" then
    .error (.runtimeError
      "Initial state based on variational form does not support vector mode.")
  else if mode = "circuit" then
    .ok (s._var_form.construct_circuit s._var_form_params register)
  else
    .error (.valueError "Mode should be either \"vector\" or \"circuit\"")

/-- Whether an `Except PyError` result is a raised `ValueError`. -/
def isValueError : Except PyError (List Gate) → Bool
  | .error (.valueError _) => true
  | _ => false

/-! ## `dj.py`: the Deutsch-Jozsa algorithm -/

/-- The interface of an `Oracle` component as used by `DeutschJozsa`:
a variable register, an output register, and the oracle circuit. -/
structure Oracle where
  variable_register : Register
  output_register : Register
  circuit : List Gate

/-- A measured bitstring, most significant character first, as the keys
of the counts dictionary returned by `get_counts`. -/
abbrev Bitstring := List Bool

/-- Python `int(s)` on a string of `'0'`/`'1'` characters: the digits
read as a decimal number. -/
def decimalOfDigits (s : Bitstring) : Nat :=
  s.foldl (fun a b => 10 * a + (if b then 1 else 0)) 0

/-- Python `max(items, key=operator.itemgetter(1))` over an association
list: the first pair whose count is maximal (Python's `max` replaces the
running maximum only on a strictly greater key). -/
def pyMaxByCount (best : Bitstring × Nat) :
    List (Bitstring × Nat) → Bitstring × Nat
  | [] => best
  | p :: ps => pyMaxByCount (if p.2 > best.2 then p else best) ps

/-- Source method `DeutschJozsa.interpret_measurement`: take the key of the
highest-count measurement, convert it with `int`, and report
`"constant"` when that value is `0`, else `"balanced"`.  `none` models
the `ValueError` Python's `max` raises on an empty dictionary. -/
def interpretMeasurement : List (Bitstring × Nat) → Option String
  | [] => none
  | p :: ps =>
    let top := pyMaxByCount p ps
    some (if decimalOfDigits top.1 = 0 then "constant" else "balanced")

lemma decimalOfDigits_foldl_eq_zero (s : Bitstring) :
    ∀ a : Nat, s.foldl (fun a b => 10 * a + (if b then 1 else 0)) a = 0 ↔
      a = 0 ∧ s.all (fun b => !b) = true := by
  induction s with
  | nil => intro a; simp
  | cons b bs ih =>
    intro a
    simp only [List.foldl_cons, List.all_cons, Bool.and_eq_true]
    rw [ih]
    cases b <;> simp

lemma decimalOfDigits_eq_zero (s : Bitstring) :
    decimalOfDigits s = 0 ↔ s.all (fun b => !b) = true := by
  unfold decimalOfDigits
  rw [decimalOfDigits_foldl_eq_zero]
  simp

lemma pyMaxByCount_le (best : Bitstring × Nat) (ps : List (Bitstring × Nat)) :
    best.2 ≤ (pyMaxByCount best ps).2 ∧
      ∀ p ∈ ps, p.2 ≤ (pyMaxByCount best ps).2 := by
  induction ps generalizing best with
  | nil => simp [pyMaxByCount]
  | cons q qs ih =>
    simp only [pyMaxByCount, List.mem_cons]
    by_cases hq : q.2 > best.2
    · simp only [if_pos hq]
      refine ⟨le_trans (le_of_lt hq) (ih q).1, ?_⟩
      intro p hp
      rcases hp with rfl | hp
      · exact (ih p).1
      · exact (ih q).2 p hp
    · simp only [if_neg hq]
      refine ⟨(ih best).1, ?_⟩
      intro p hp
      rcases hp with rfl | hp
      · exact le_trans (Nat.le_of_not_lt hq) (ih best).1
      · exact (ih best).2 p hp

/-- C1: for every non-empty counts mapping, `interpret_measurement`
returns `"constant"` exactly when the selected top bitstring is all
zeros and `"balanced"` otherwise, and the selected bitstring's count is
maximal among all entries. -/
theorem dj_interpret_measurement_classifies (p : Bitstring × Nat)
    (ps : List (Bitstring × Nat)) :
    interpretMeasurement (p :: ps) =
      some (if (pyMaxByCount p ps).1.all (fun b => !b) then "constant"
            else "balanced") ∧
    ∀ q ∈ p :: ps, q.2 ≤ (pyMaxByCount p ps).2 := by
  constructor
  · simp only [interpretMeasurement]
    by_cases h : (pyMaxByCount p ps).1.all (fun b => !b) = true
    · rw [if_pos h, if_pos ((decimalOfDigits_eq_zero _).mpr h)]
    · rw [if_neg h, if_neg (fun hz => h ((decimalOfDigits_eq_zero _).mp hz))]
  · intro q hq
    rcases List.mem_cons.mp hq with rfl | hq
    · exact (pyMaxByCount_le q ps).1
    · exact (pyMaxByCount_le p ps).2 q hq

/-! ## `qpe.py`: Quantum Phase Estimation

The coefficients of the operator's flat Pauli list are modelled as
rationals.  Lines 116-118 of `qpe.py` compute the translation and
stretch factors from them; Python raises `ZeroDivisionError` on the
division `0.5 / translation` when the translation is zero. -/

/-- Line 117: `sum([abs(p[0]) for p in self._pauli_list])`. -/
def qpeTranslation (coeffs : List ℚ) : ℚ := (coeffs.map (fun c => |c|)).sum

/-- The two affine-transform factors stored in `self._ret`. -/
structure QPEFactors where
  translation : ℚ
  stretch : ℚ
deriving DecidableEq, Repr

/-- Lines 117-118 of `QPE.__init__`: `translation = sum(abs(coeff))`,
`stretch = 0.5 / translation`; the division raises `ZeroDivisionError`
when the translation is zero. -/
def qpeInitFactors (coeffs : List ℚ) : Except String QPEFactors :=
  if qpeTranslation coeffs = 0 then
    .error "ZeroDivisionError: float division by zero"
  else
    .ok ⟨qpeTranslation coeffs, (1 / 2) / qpeTranslation coeffs⟩

/-- Line 144: `self._binary_fractions = [1 / 2 ** p for p in range(1, num_ancillae + 1)]`. -/
def binaryFractions (num_ancillae : Nat) : List ℚ :=
  (List.range num_ancillae).map (fun p => 1 / 2 ^ (p + 1))

/-- Lines 213-215: `sum([t[0] * t[1] for t in
zip(self._binary_fractions, [int(n) for n in top_measurement_label])])`. -/
def topMeasurementDecimal (num_ancillae : Nat) (label : Bitstring) : ℚ :=
  (List.zipWith (fun f d => f * d) (binaryFractions num_ancillae)
    (label.map (fun b => if b then (1 : ℚ) else 0))).sum

/-- The result fields stored by lines 217-220 of `QPE._compute_energy`. -/
structure QPERet where
  top_measurement_label : Bitstring
  top_measurement_decimal : ℚ
  eigvals : List ℚ
  energy : ℚ
deriving DecidableEq, Repr

/-- Lines 213-220 of `QPE._compute_energy`: decode the top measurement
label into a decimal fraction and undo the affine transform:
`eigvals = [decimal / stretch - translation]`, `energy = eigvals[0]`. -/
def qpeDecode (f : QPEFactors) (num_ancillae : Nat)
    (top_measurement_label : Bitstring) : QPERet :=
  let top_measurement_decimal :=
    topMeasurementDecimal num_ancillae top_measurement_label
  let eigvals := [top_measurement_decimal / f.stretch - f.translation]
  { top_measurement_label := top_measurement_label
    top_measurement_decimal := top_measurement_decimal
    eigvals := eigvals
    energy := eigvals.headD 0 }

/-! ### Selecting the top measurement label (lines 190-211)

Counts mode, line 211:
`sorted([(ancilla_counts[k], k) for k in ancilla_counts])[::-1][0][-1][::-1]`.
Python sorts the `(count, key)` pairs lexicographically: first by count,
then by the key string (character `'0'` before `'1'`, a proper prefix
before its extensions). -/

/-- The list comprehension `[(ancilla_counts[k], k) for k in ancilla_counts]`. -/
def countKeyPairs (ancilla_counts : List (Bitstring × Nat)) :
    List (Nat × Bitstring) :=
  ancilla_counts.map (fun kv => (kv.2, kv.1))

/-- Python string `<=` on `'0'`/`'1'` strings: lexicographic, with a
proper prefix below its extensions. -/
def strLe : Bitstring → Bitstring → Bool
  | [], _ => true
  | _ :: _, [] => false
  | a :: as, b :: bs => if a = b then strLe as bs else (!a && b)

/-- Python `<=` on `(count, key)` tuples: lexicographic. -/
def pairLe (p q : Nat × Bitstring) : Prop :=
  p.1 < q.1 ∨ (p.1 = q.1 ∧ strLe p.2 q.2 = true)

instance : DecidableRel pairLe := fun p q => by
  unfold pairLe; infer_instance

lemma strLe_total (a : Bitstring) : ∀ b : Bitstring,
    strLe a b = true ∨ strLe b a = true := by
  induction a with
  | nil => intro b; left; rfl
  | cons x as ih =>
    intro b
    cases b with
    | nil => right; rfl
    | cons y bs =>
      by_cases hxy : x = y
      · subst hxy
        simpa [strLe] using ih bs
      · cases x <;> cases y <;> simp_all [strLe]

lemma strLe_trans (a : Bitstring) : ∀ b c : Bitstring,
    strLe a b = true → strLe b c = true → strLe a c = true := by
  induction a with
  | nil => intro b c _ _; rfl
  | cons x as ih =>
    intro b c hab hbc
    cases b with
    | nil => simp [strLe] at hab
    | cons y bs =>
      cases c with
      | nil => simp [strLe] at hbc
      | cons z cs =>
        cases x <;> cases y <;> cases z <;>
          simp_all [strLe] <;>
          exact ih bs cs hab hbc

instance : IsTotal (Nat × Bitstring) pairLe := by
  refine ⟨fun p q => ?_⟩
  rcases Nat.lt_trichotomy p.1 q.1 with h | h | h
  · exact Or.inl (Or.inl h)
  · rcases strLe_total p.2 q.2 with hs | hs
    · exact Or.inl (Or.inr ⟨h, hs⟩)
    · exact Or.inr (Or.inr ⟨h.symm, hs⟩)
  · exact Or.inr (Or.inl h)

instance : IsTrans (Nat × Bitstring) pairLe := by
  refine ⟨fun p q r hpq hqr => ?_⟩
  rcases hpq with h1 | ⟨h1, hs1⟩
  · rcases hqr with h2 | ⟨h2, _⟩
    · exact Or.inl (lt_trans h1 h2)
    · exact Or.inl (h2 ▸ h1)
  · rcases hqr with h2 | ⟨h2, hs2⟩
    · exact Or.inl (h1 ▸ h2)
    · exact Or.inr ⟨h1.trans h2, strLe_trans p.2 q.2 r.2 hs1 hs2⟩

/-- Line 211 of `qpe.py`: sort the `(count, key)` pairs, reverse, take
the first pair's key, and reverse that key's characters.  `none` models
the `IndexError` of `[0]` on an empty counts dictionary. -/
def topMeasurementLabelCounts (ancilla_counts : List (Bitstring × Nat)) :
    Option Bitstring :=
  ((List.insertionSort pairLe (countKeyPairs ancilla_counts)).reverse.head?).map
    (fun t => t.2.reverse)

/-- Line 200: `max(diag.min(), diag.max(), key=abs)`; Python's two-ary
`max` keeps the first argument unless the second has a strictly larger
key.  The diagonal of the reduced density matrix is modelled as a list
of rationals. -/
def maxAmplitude (diag : List ℚ) : Option ℚ :=
  match diag.min?, diag.max? with
  | some mn, some mx => some (if |mx| > |mn| then mx else mn)
  | _, _ => none

/-- Line 201: `np.where(diag == max_amplitude)[0][0]`, the first index
holding the maximal amplitude. -/
def maxAmplitudeIdx (diag : List ℚ) : Option Nat :=
  (maxAmplitude diag).bind (fun a => diag.findIdx? (fun v => decide (v = a)))

/-- NumPy `np.binary_repr(i, width)` for `i < 2 ^ width`: the width-digit
binary representation of `i`, most significant bit first.  (NumPy
widens the string for larger `i`; `qpe.py` only calls it with the index
of an entry of a `2 ^ num_ancillae`-element diagonal.) -/
def binaryRepr (i width : Nat) : Bitstring :=
  (List.range width).map (fun j => i.testBit (width - 1 - j))

/-- Line 202: `np.binary_repr(max_amplitude_idx, self._num_ancillae)[::-1]`. -/
def topMeasurementLabelSV (diag : List ℚ) (num_ancillae : Nat) :
    Option Bitstring :=
  (maxAmplitudeIdx diag).map (fun idx => (binaryRepr idx num_ancillae).reverse)

lemma zipWith_mul_sum (fs : List ℚ) : ∀ xs : List ℚ,
    (List.zipWith (fun f x => f * x) fs xs).sum =
      ∑ i in Finset.range (min fs.length xs.length),
        fs.getD i 0 * xs.getD i 0 := by
  induction fs with
  | nil => intro xs; simp
  | cons f fs ih =>
    intro xs
    cases xs with
    | nil => simp
    | cons x xs =>
      simp only [List.zipWith_cons_cons, List.sum_cons, List.length_cons,
        Nat.succ_min_succ]
      rw [ih, Finset.sum_range_succ']
      simp only [List.getD_cons_succ, List.getD_cons_zero]
      ring

lemma binaryFractions_length (n : Nat) : (binaryFractions n).length = n := by
  simp [binaryFractions]

lemma binaryFractions_getD (n i : Nat) (h : i < n) :
    (binaryFractions n).getD i 0 = 1 / 2 ^ (i + 1) := by
  simp [binaryFractions, List.getD_eq_getElem?_getD, List.getElem?_map,
    List.getElem?_range h]

/-- C10: the constructor's scalar preprocessing defines the translation
as the sum of the absolute values of the flat Pauli coefficients and the
stretch as one half divided by it; it fails (Python's
`ZeroDivisionError`) exactly when that sum is zero, a precondition the
spec does not state. -/
theorem qpe_init_requires_nonzero_translation (coeffs : List ℚ) :
    qpeTranslation coeffs = (coeffs.map (fun c => |c|)).sum ∧
    ((∃ e, qpeInitFactors coeffs = .error e) ↔ qpeTranslation coeffs = 0) ∧
    (qpeTranslation coeffs ≠ 0 →
      qpeInitFactors coeffs =
        .ok ⟨qpeTranslation coeffs, (1 / 2) / qpeTranslation coeffs⟩) := by
  refine ⟨rfl, ?_, ?_⟩
  · unfold qpeInitFactors
    by_cases h : qpeTranslation coeffs = 0
    · simp [h]
    · simp [h]
  · intro h
    unfold qpeInitFactors
    rw [if_neg h]

/-- C10 witness: a concrete coefficient list with nonzero translation. -/
theorem qpe_init_requires_nonzero_translation_witness :
    qpeTranslation [(1 : ℚ), -2] ≠ 0 ∧
    qpeInitFactors [(1 : ℚ), -2] =
      .ok ⟨qpeTranslation [(1 : ℚ), -2], (1 / 2) / qpeTranslation [(1 : ℚ), -2]⟩ :=
  ⟨by norm_num [qpeTranslation],
   (qpe_init_requires_nonzero_translation [(1 : ℚ), -2]).2.2
     (by norm_num [qpeTranslation])⟩

/-- C2: the stored eigenvalue equals the decoded decimal fraction
divided by the stretch minus the translation, and (since the stretch
produced by the constructor is nonzero) re-applying the forward affine
transform to the energy recovers the decimal fraction exactly. -/
theorem qpe_energy_inverse_affine (coeffs : List ℚ) (f : QPEFactors)
    (n : Nat) (label : Bitstring)
    (hf : qpeInitFactors coeffs = .ok f) :
    (qpeDecode f n label).energy =
      (qpeDecode f n label).top_measurement_decimal / f.stretch -
        f.translation ∧
    (qpeDecode f n label).eigvals = [(qpeDecode f n label).energy] ∧
    ((qpeDecode f n label).energy + f.translation) * f.stretch =
      (qpeDecode f n label).top_measurement_decimal := by
  have hs : f.stretch ≠ 0 := by
    unfold qpeInitFactors at hf
    by_cases h : qpeTranslation coeffs = 0
    · rw [if_pos h] at hf; exact absurd hf (by simp)
    · rw [if_neg h] at hf
      have hf' : f = ⟨qpeTranslation coeffs, (1 / 2) / qpeTranslation coeffs⟩ :=
        (Except.ok.injEq _ _).mp hf.symm
      rw [hf']
      exact div_ne_zero (by norm_num) h
  refine ⟨rfl, rfl, ?_⟩
  simp only [qpeDecode, List.headD_cons]
  rw [sub_add_cancel, div_mul_cancel₀ _ hs]

/-- C2 witness: a concrete run with one Pauli coefficient. -/
theorem qpe_energy_inverse_affine_witness :
    qpeInitFactors [(1 : ℚ)] = .ok ⟨1, 1 / 2⟩ ∧
    ((qpeDecode ⟨1, 1 / 2⟩ 1 [true]).energy =
      (qpeDecode ⟨1, 1 / 2⟩ 1 [true]).top_measurement_decimal /
        (QPEFactors.mk 1 (1 / 2)).stretch -
        (QPEFactors.mk 1 (1 / 2)).translation ∧
    (qpeDecode ⟨1, 1 / 2⟩ 1 [true]).eigvals =
      [(qpeDecode ⟨1, 1 / 2⟩ 1 [true]).energy] ∧
    ((qpeDecode ⟨1, 1 / 2⟩ 1 [true]).energy +
        (QPEFactors.mk 1 (1 / 2)).translation) *
      (QPEFactors.mk 1 (1 / 2)).stretch =
      (qpeDecode ⟨1, 1 / 2⟩ 1 [true]).top_measurement_decimal) :=
  ⟨by norm_num [qpeInitFactors, qpeTranslation],
   qpe_energy_inverse_affine [(1 : ℚ)] ⟨1, 1 / 2⟩ 1 [true]
     (by norm_num [qpeInitFactors, qpeTranslation])⟩

/-- C6: an all-zero measured ancilla bitstring decodes to decimal
fraction `0`, for every number of ancillae at least `1`. -/
theorem qpe_all_zero_label_decimal_zero (n : Nat) (_h : 1 ≤ n) :
    topMeasurementDecimal n (List.replicate n false) = 0 := by
  unfold topMeasurementDecimal
  rw [List.map_replicate]
  simp only [if_neg Bool.false_ne_true]
  rw [zipWith_mul_sum]
  refine Finset.sum_eq_zero fun i _ => ?_
  have hz : (List.replicate n (0 : ℚ)).getD i 0 = 0 := by
    rw [List.getD_eq_getElem?_getD, List.getElem?_replicate]
    by_cases hi : i < n <;> simp [hi]
  rw [hz, mul_zero]

/-- C6 witness: three ancillae. -/
theorem qpe_all_zero_label_decimal_zero_witness :
    1 ≤ 3 ∧ topMeasurementDecimal 3 (List.replicate 3 false) = 0 :=
  ⟨by decide, qpe_all_zero_label_decimal_zero 3 (by decide)⟩

lemma topMeasurementLabelCounts_spec (x : Bitstring × Nat)
    (xs : List (Bitstring × Nat)) :
    ∃ k c, (k, c) ∈ x :: xs ∧
      topMeasurementLabelCounts (x :: xs) = some k.reverse ∧
      ∀ p ∈ x :: xs, p.2 ≤ c := by
  have hperm := List.perm_insertionSort pairLe (countKeyPairs (x :: xs))
  have hsort := List.sorted_insertionSort pairLe (countKeyPairs (x :: xs))
  cases hrev : (List.insertionSort pairLe (countKeyPairs (x :: xs))).reverse with
  | nil =>
    exfalso
    rw [List.reverse_eq_nil_iff.mp hrev] at hperm
    have hnil : countKeyPairs (x :: xs) = [] := hperm.symm.eq_nil
    simp [countKeyPairs] at hnil
  | cons h t =>
    have hmem_rev : ∀ p ∈ countKeyPairs (x :: xs), p ∈ h :: t := by
      intro p hp
      rw [← hrev, List.mem_reverse]
      exact hperm.mem_iff.mpr hp
    have hh_mem : h ∈ countKeyPairs (x :: xs) := by
      have hh : h ∈ h :: t := List.mem_cons_self h t
      rw [← hrev, List.mem_reverse] at hh
      exact hperm.mem_iff.mp hh
    have hpw : (List.insertionSort pairLe (countKeyPairs (x :: xs))).reverse.Pairwise
        (fun a b => pairLe b a) := List.pairwise_reverse.mpr hsort
    rw [hrev] at hpw
    have hmax : ∀ p ∈ countKeyPairs (x :: xs), p = h ∨ pairLe p h := by
      intro p hp
      rcases List.mem_cons.mp (hmem_rev p hp) with hph | hpt
      · exact Or.inl hph
      · exact Or.inr (List.rel_of_sorted_cons hpw p hpt)
    obtain ⟨kv, hkv_mem, hkv_eq⟩ := List.mem_map.mp hh_mem
    refine ⟨h.2, h.1, ?_, ?_, ?_⟩
    · have : kv = (h.2, h.1) := by
        have h1 : kv.2 = h.1 := congrArg Prod.fst hkv_eq
        have h2 : kv.1 = h.2 := congrArg Prod.snd hkv_eq
        exact Prod.ext h2 h1
      exact this ▸ hkv_mem
    · unfold topMeasurementLabelCounts
      rw [hrev, List.head?_cons, Option.map_some']
    · intro p hp
      have hp' : (p.2, p.1) ∈ countKeyPairs (x :: xs) :=
        List.mem_map.mpr ⟨p, hp, rfl⟩
      rcases hmax (p.2, p.1) hp' with heq | hle
      · exact le_of_eq (congrArg Prod.fst heq)
      · rcases hle with hlt | ⟨heq, _⟩
        · exact le_of_lt hlt
        · exact le_of_eq heq

lemma maxAmplitude_spec (d : ℚ) (ds : List ℚ) :
    ∃ a, maxAmplitude (d :: ds) = some a ∧ a ∈ d :: ds ∧
      ∀ v ∈ d :: ds, |v| ≤ |a| := by
  cases hmn : (d :: ds).min? with
  | none => simp at hmn
  | some mn =>
    cases hmx : (d :: ds).max? with
    | none => simp at hmx
    | some mx =>
      have hmn_mem : mn ∈ d :: ds :=
        List.min?_mem (fun a b => min_choice a b) hmn
      have hmx_mem : mx ∈ d :: ds :=
        List.max?_mem (fun a b => max_choice a b) hmx
      have hmn_le : ∀ v ∈ d :: ds, mn ≤ v :=
        (List.le_min?_iff (fun _ _ _ => le_min_iff) hmn).mp (le_refl mn)
      have hle_mx : ∀ v ∈ d :: ds, v ≤ mx :=
        (List.max?_le_iff (fun _ _ _ => max_le_iff) hmx).mp (le_refl mx)
      refine ⟨if |mx| > |mn| then mx else mn, ?_, ?_, ?_⟩
      · unfold maxAmplitude
        rw [hmn, hmx]
      · by_cases hc : |mx| > |mn|
        · rw [if_pos hc]; exact hmx_mem
        · rw [if_neg hc]; exact hmn_mem
      · intro v hv
        have hb : |v| ≤ max |mn| |mx| :=
          abs_le_max_abs_abs (hmn_le v hv) (hle_mx v hv)
        by_cases hc : |mx| > |mn|
        · rw [if_pos hc]
          exact hb.trans (le_of_eq (max_eq_right (le_of_lt hc)))
        · rw [if_neg hc]
          exact hb.trans (le_of_eq (max_eq_left (not_lt.mp hc)))

lemma maxAmplitudeIdx_spec (d : ℚ) (ds : List ℚ) :
    ∃ idx a, maxAmplitude (d :: ds) = some a ∧
      maxAmplitudeIdx (d :: ds) = some idx ∧
      (d :: ds).getD idx 0 = a ∧
      ∀ v ∈ d :: ds, |v| ≤ |a| := by
  obtain ⟨a, ha, hmem, habs⟩ := maxAmplitude_spec d ds
  have hex : ∃ v, v ∈ d :: ds ∧ (fun v => decide (v = a)) v :=
    ⟨a, hmem, by simp⟩
  have hfind := List.findIdx?_eq_some_of_exists hex
  have hlt := List.findIdx_lt_length_of_exists hex
  refine ⟨(d :: ds).findIdx (fun v => decide (v = a)), a, ha, ?_, ?_, habs⟩
  · unfold maxAmplitudeIdx
    rw [ha]
    exact hfind
  · have hp := @List.findIdx_getElem _ (fun v => decide (v = a)) (d :: ds) hlt
    have hval : (d :: ds)[(d :: ds).findIdx (fun v => decide (v = a))] = a :=
      of_decide_eq_true hp
    rw [List.getD_eq_getElem?_getD, List.getElem?_eq_getElem hlt,
      Option.getD_some]
    exact hval

lemma topMeasurementDecimal_eq_sum (n : Nat) (label : Bitstring) :
    topMeasurementDecimal n label =
      ∑ i in Finset.range (min n label.length),
        (if label.getD i false then (1 : ℚ) else 0) / 2 ^ (i + 1) := by
  unfold topMeasurementDecimal
  rw [zipWith_mul_sum, binaryFractions_length, List.length_map]
  refine Finset.sum_congr rfl fun i hi => ?_
  rw [Finset.mem_range] at hi
  have hin : i < n := lt_of_lt_of_le hi (min_le_left _ _)
  have hil : i < label.length := lt_of_lt_of_le hi (min_le_right _ _)
  rw [binaryFractions_getD n i hin]
  have hgd : (label.map (fun b => if b then (1 : ℚ) else 0)).getD i 0 =
      (if label.getD i false then (1 : ℚ) else 0) := by
    rw [List.getD_eq_getElem?_getD, List.getElem?_map,
      List.getD_eq_getElem?_getD, List.getElem?_eq_getElem hil]
    simp
  rw [hgd, one_div, inv_mul_eq_div]

/-- C3: the selected top measurement label is a bit-reversed bitstring —
in counts mode the reversed key of a highest-count outcome, in
state-vector mode the reversed binary representation of the first index
carrying the maximum-magnitude diagonal entry — and the decoded decimal
fraction of a label is the sum over bit positions `i` (starting at `1`)
of `bit_i / 2 ^ i`. -/
theorem qpe_top_measurement_decoding (x : Bitstring × Nat)
    (xs : List (Bitstring × Nat)) (d : ℚ) (ds : List ℚ) (n : Nat)
    (label : Bitstring) :
    (∃ k c, (k, c) ∈ x :: xs ∧
      topMeasurementLabelCounts (x :: xs) = some k.reverse ∧
      ∀ p ∈ x :: xs, p.2 ≤ c) ∧
    (∃ idx a, maxAmplitude (d :: ds) = some a ∧
      maxAmplitudeIdx (d :: ds) = some idx ∧
      topMeasurementLabelSV (d :: ds) n = some ((binaryRepr idx n).reverse) ∧
      (d :: ds).getD idx 0 = a ∧
      ∀ v ∈ d :: ds, |v| ≤ |a|) ∧
    topMeasurementDecimal n label =
      ∑ i in Finset.range (min n label.length),
        (if label.getD i false then (1 : ℚ) else 0) / 2 ^ (i + 1) := by
  refine ⟨topMeasurementLabelCounts_spec x xs, ?_,
    topMeasurementDecimal_eq_sum n label⟩
  obtain ⟨idx, a, ha, hidx, hget, habs⟩ := maxAmplitudeIdx_spec d ds
  refine ⟨idx, a, ha, hidx, ?_, hget, habs⟩
  unfold topMeasurementLabelSV
  rw [hidx, Option.map_some']

/-! ## `DeutschJozsa.construct_circuit` (lines 73-110 of `dj.py`) -/

/-- Lines 78-85: the preoracle segment — Hadamards on the variable
register, X then Hadamard on the output register, then a barrier. -/
def qcPreoracle (o : Oracle) : List Gate :=
  hOnRegister o.variable_register ++ xOnRegister o.output_register ++
    hOnRegister o.output_register ++ [Gate.barrier]

/-- Lines 90-96: the postoracle segment — Hadamards on the variable
register, then a barrier. -/
def qcPostoracle (o : Oracle) : List Gate :=
  hOnRegister o.variable_register ++ [Gate.barrier]

/-- Lines 99-100: `ClassicalRegister(len(variable_register), name='m')`,
a fresh classical register with one wire per variable qubit. -/
def measurementCr (o : Oracle) : Register :=
  List.range o.variable_register.length

/-- Lines 102-107: measure the variable register into the classical
register. -/
def qcMeasurement (o : Oracle) : List Gate :=
  measureRegister o.variable_register (measurementCr o)

/-- Line 109: `qc_preoracle + qc_oracle + qc_postoracle + qc_measurement`. -/
def djBuildCircuit (o : Oracle) : List Gate :=
  qcPreoracle o ++ o.circuit ++ qcPostoracle o ++ qcMeasurement o

/-- The state of a `DeutschJozsa` instance: the oracle and the
`self._circuit` cache (`None` after `__init__`). -/
structure DeutschJozsa where
  _oracle : Oracle
  _circuit : Option (List Gate)

/-- Lines 73-110: return the cached circuit when `self._circuit` is not
`None`; otherwise build the circuit, store it and return it.  The pair
is (returned circuit, instance state after the call). -/
def DeutschJozsa.construct_circuit (dj : DeutschJozsa) :
    List Gate × DeutschJozsa :=
  match dj._circuit with
  | some qc => (qc, dj)
  | none =>
    (djBuildCircuit dj._oracle,
      { dj with _circuit := some (djBuildCircuit dj._oracle) })

/-- C7: on a fresh instance, `construct_circuit` returns the
concatenation, in order, of the state-preparation segment (Hadamards on
the variable register, X then Hadamard on the output register), the
oracle circuit, the interference segment (Hadamards on the variable
register) and the measurement segment, whose classical register has the
size of the variable register. -/
theorem dj_construct_circuit_segments (dj : DeutschJozsa)
    (h : dj._circuit = none) :
    (dj.construct_circuit).1 =
      (hOnRegister dj._oracle.variable_register ++
        xOnRegister dj._oracle.output_register ++
        hOnRegister dj._oracle.output_register ++ [Gate.barrier]) ++
      dj._oracle.circuit ++
      (hOnRegister dj._oracle.variable_register ++ [Gate.barrier]) ++
      measureRegister dj._oracle.variable_register (measurementCr dj._oracle) ∧
    (measurementCr dj._oracle).length =
      dj._oracle.variable_register.length := by
  simp only [DeutschJozsa.construct_circuit, h]
  exact ⟨rfl, List.length_range _⟩

/-- C7 witness: a two-qubit variable register and one output qubit. -/
theorem dj_construct_circuit_segments_witness :
    (DeutschJozsa.mk ⟨[0, 1], [2], [Gate.x 2]⟩ none)._circuit = none ∧
    (((DeutschJozsa.mk ⟨[0, 1], [2], [Gate.x 2]⟩ none).construct_circuit).1 =
      (hOnRegister [0, 1] ++ xOnRegister [2] ++ hOnRegister [2] ++
        [Gate.barrier]) ++
      [Gate.x 2] ++
      (hOnRegister [0, 1] ++ [Gate.barrier]) ++
      measureRegister [0, 1] (measurementCr ⟨[0, 1], [2], [Gate.x 2]⟩) ∧
    (measurementCr ⟨[0, 1], [2], [Gate.x 2]⟩).length =
      ([0, 1] : Register).length) :=
  ⟨rfl,
   dj_construct_circuit_segments (DeutschJozsa.mk ⟨[0, 1], [2], [Gate.x 2]⟩ none)
     rfl⟩

/-- C9: `construct_circuit` is idempotent through the `self._circuit`
cache: a first call on a fresh instance builds the circuit and stores
it, and a call on the resulting instance returns that same stored
circuit with the state unchanged (no rebuild). -/
theorem dj_construct_circuit_caches (dj : DeutschJozsa)
    (h : dj._circuit = none) :
    dj.construct_circuit =
      (djBuildCircuit dj._oracle,
        { dj with _circuit := some (djBuildCircuit dj._oracle) }) ∧
    ((dj.construct_circuit).2).construct_circuit =
      ((dj.construct_circuit).1, (dj.construct_circuit).2) := by
  simp only [DeutschJozsa.construct_circuit, h]
  exact ⟨trivial, trivial⟩

/-- C9 witness: a concrete fresh instance. -/
theorem dj_construct_circuit_caches_witness :
    (DeutschJozsa.mk ⟨[0], [1], []⟩ none)._circuit = none ∧
    ((DeutschJozsa.mk ⟨[0], [1], []⟩ none).construct_circuit =
      (djBuildCircuit ⟨[0], [1], []⟩,
        DeutschJozsa.mk ⟨[0], [1], []⟩ (some (djBuildCircuit ⟨[0], [1], []⟩))) ∧
    (((DeutschJozsa.mk ⟨[0], [1], []⟩ none).construct_circuit).2).construct_circuit =
      (((DeutschJozsa.mk ⟨[0], [1], []⟩ none).construct_circuit).1,
        ((DeutschJozsa.mk ⟨[0], [1], []⟩ none).construct_circuit).2)) :=
  ⟨rfl, dj_construct_circuit_caches (DeutschJozsa.mk ⟨[0], [1], []⟩ none) rfl⟩

/-- C4: constructing a `VarFormBased` fails exactly when the variational
form's declared parameter count differs from the length of the supplied
parameter list, and on a matching count it stores the variational form
and the parameters. -/
theorem var_form_based_init_iff (var_form : VariationalForm)
    (params : List ℚ) :
    ((∃ e, VarFormBased.init var_form params = .error e) ↔
      var_form.num_parameters ≠ params.length) ∧
    (var_form.num_parameters = params.length →
      VarFormBased.init var_form params = .ok ⟨var_form, params⟩) := by
  unfold VarFormBased.init
  by_cases h : var_form.num_parameters = params.length
  · simp [h]
  · simp [h]

/-- C4 witness: a matching parameter count. -/
theorem var_form_based_init_iff_witness :
    (VariationalForm.mk 2 (fun _ _ => [])).num_parameters =
      [(0 : ℚ), 1].length ∧
    VarFormBased.init (VariationalForm.mk 2 (fun _ _ => [])) [(0 : ℚ), 1] =
      .ok ⟨VariationalForm.mk 2 (fun _ _ => []), [(0 : ℚ), 1]⟩ :=
  ⟨rfl, (var_form_based_init_iff (VariationalForm.mk 2 (fun _ _ => []))
    [(0 : ℚ), 1]).2 rfl⟩

/-- C5 counterexample: on a concrete instance, mode `'vector'` raises
`RuntimeError`, not the `ValueError` the claim asserts. -/
theorem var_form_based_vector_mode_not_valueerror :
    VarFormBased.constructCircuit ⟨⟨0, fun _ _ => []⟩, []⟩ "vector" none =
      .error (.runtimeError
        "Initial state based on variational form does not support vector mode.") ∧
    isValueError
      (VarFormBased.constructCircuit ⟨⟨0, fun _ _ => []⟩, []⟩ "vector" none) =
      false :=
  ⟨rfl, rfl⟩

/-- C5 (amended): mode `'vector'` raises an unsupported-mode
`RuntimeError`, mode `'circuit'` returns the variational form's
circuit, and every other mode raises an invalid-argument `ValueError`. -/
theorem var_form_based_construct_circuit_modes (s : VarFormBased)
    (mode : String) (register : Option Register) :
    (mode = "vector" →
      s.constructCircuit mode register =
        .error (.runtimeError
          "Initial state based on variational form does not support vector mode.")) ∧
    (mode = "circuit" →
      s.constructCircuit mode register =
        .ok (s._var_form.construct_circuit s._var_form_params register)) ∧
    (mode ≠ "vector" → mode ≠ "circuit" →
      s.constructCircuit mode register =
        .error (.valueError "Mode should be either \"vector\" or \"circuit\"")) := by
  unfold VarFormBased.constructCircuit
  refine ⟨?_, ?_, ?_⟩
  · rintro rfl
    rw [if_pos rfl]
  · rintro rfl
    rw [if_neg (by decide), if_pos rfl]
  · intro h1 h2
    rw [if_neg h1, if_neg h2]

/-- C5 (amended) witness: mode `'circuit'` on a concrete instance. -/
theorem var_form_based_construct_circuit_modes_witness :
    ("circuit" : String) = "circuit" ∧
    VarFormBased.constructCircuit ⟨⟨0, fun _ _ => []⟩, []⟩ "circuit" none =
      .ok ((VariationalForm.mk 0 (fun _ _ => [])).construct_circuit [] none) :=
  ⟨rfl,
   (var_form_based_construct_circuit_modes ⟨⟨0, fun _ _ => []⟩, []⟩ "circuit"
     none).2.1 rfl⟩

/-! ## The QPE configuration schema (lines 41-90 of `qpe.py`) -/

/-- A JSON scalar appearing in the schema. -/
inductive JsonVal where
  | int (i : Int)
  | str (s : String)
deriving DecidableEq, Repr

/-- One property declaration of the configuration input schema. -/
structure SchemaProperty where
  name : String
  jtype : String
  defaultVal : JsonVal
  minimum : Option Int
  oneOfEnum : Option (List String)
deriving DecidableEq, Repr

/-- The `properties` of `QPE.CONFIGURATION['input_schema']`
(lines 48-74). -/
def qpeSchemaProperties : List SchemaProperty :=
  [⟨"num_time_slices", "integer", .int 1, some 1, none⟩,
   ⟨"expansion_mode", "string", .str "trotter", none,
     some ["suzuki", "trotter"]⟩,
   ⟨"expansion_order", "integer", .int 1, some 1, none⟩,
   ⟨"num_ancillae", "integer", .int 1, some 1, none⟩]

/-- Modelled from the spec: the JSON-schema validation the framework's
`validate` applies to configured values (that code is not under `src/`);
per the spec, an option is "an integer ... defaulting to 1 with
minimum 1", and a value below a declared minimum is rejected. -/
def validateIntOption (p : SchemaProperty) (v : Int) : Bool :=
  match p.minimum with
  | some m => decide (m ≤ v)
  | none => true

/-- C8: the schema declares `num_time_slices`, `expansion_order` and
`num_ancillae` as integers with default `1` and minimum `1`, so any
configured value below `1` fails validation. -/
theorem qpe_schema_integer_minimums (v : Int) (hv : v < 1) :
    qpeSchemaProperties.find? (fun p => p.name == "num_time_slices") =
      some ⟨"num_time_slices", "integer", .int 1, some 1, none⟩ ∧
    qpeSchemaProperties.find? (fun p => p.name == "expansion_order") =
      some ⟨"expansion_order", "integer", .int 1, some 1, none⟩ ∧
    qpeSchemaProperties.find? (fun p => p.name == "num_ancillae") =
      some ⟨"num_ancillae", "integer", .int 1, some 1, none⟩ ∧
    ∀ p ∈ qpeSchemaProperties, p.minimum = some 1 →
      validateIntOption p v = false := by
  refine ⟨rfl, rfl, rfl, ?_⟩
  intro p _ hmin
  unfold validateIntOption
  rw [hmin]
  exact decide_eq_false (by omega)

/-- C8 witness: the configured value `0` is rejected. -/
theorem qpe_schema_integer_minimums_witness :
    (0 : Int) < 1 ∧
    (qpeSchemaProperties.find? (fun p => p.name == "num_time_slices") =
      some ⟨"num_time_slices", "integer", .int 1, some 1, none⟩ ∧
    qpeSchemaProperties.find? (fun p => p.name == "expansion_order") =
      some ⟨"expansion_order", "integer", .int 1, some 1, none⟩ ∧
    qpeSchemaProperties.find? (fun p => p.name == "num_ancillae") =
      some ⟨"num_ancillae", "integer", .int 1, some 1, none⟩ ∧
    ∀ p ∈ qpeSchemaProperties, p.minimum = some 1 →
      validateIntOption p 0 = false) :=
  ⟨by decide, qpe_schema_integer_minimums 0 (by decide)⟩
